import Mathlib

/-!
Shallow embedding of the rufi aggregate-computing core (crates/rf-core) and of
the mailbox policies (crates/rf-distributed-impl/src/mailbox.rs).

Modelling conventions:
* Rust `i32` indices and device ids are modelled as `Int` (no arithmetic close
  to the overflow boundary occurs in the modelled code paths).
* Heterogeneous `Rc<Box<dyn Any>>` values are modelled by the closed tagged
  union `Value` over the primitive domains the code downcasts to
  (`i32`, `bool`, `String`); `Ty` models the static type parameter `A` at
  which the Rust generics are instantiated, and `Value.downcast` models
  `downcast_ref::<A>`.
* Rust panics (`unwrap`, `Vec::drain` out of bounds, `first_mut().unwrap()`,
  stack-underflow `pop`) are modelled by `Option`/`none`; `Result`-valued
  reads (`Export::get`) are likewise modelled by `Option`.
* `HashMap` iteration order is modelled by association-list order.
-/

namespace Rufi

/-- `Slot` from src/crates/rf-core/src/slot.rs: one constructor per language
construct, each carrying the sibling index (`i32`). -/
inductive Slot where
  | Nbr : Int → Slot
  | Rep : Int → Slot
  | FoldHood : Int → Slot
  | Branch : Int → Slot
  | Exchange : Int → Slot
deriving DecidableEq, Repr

/-- `Path` from src/crates/rf-core/src/path.rs: a vector of slots used as an
immutable stack; `slots[0]` is the head (the most recently pushed slot). -/
structure Path where
  slots : List Slot
deriving DecidableEq, Repr

namespace Path

/-- `Path::new` -/
def new : Path := ⟨[]⟩

/-- `Path::push`: `[&[slot], &self.slots[..]].concat()` — new head in front. -/
def push (p : Path) (s : Slot) : Path := ⟨s :: p.slots⟩

/-- `Path::pull`: `drain(..1)` drops the head; on the empty path `drain(..1)`
panics (out-of-bounds range), modelled by `none`. -/
def pull (p : Path) : Option Path :=
  match p.slots with
  | [] => none
  | _ :: t => some ⟨t⟩

/-- `Path::is_root` -/
def isRoot (p : Path) : Bool := p.slots.isEmpty

/-- `Path::head`: `slots.first().unwrap()` — panics (modelled `none`) on the
empty path. -/
def head (p : Path) : Option Slot := p.slots.head?

/-- `Path::matches` is structural equality. -/
def matchesP (p q : Path) : Bool := p = q

end Path

/-- The static type at which the Rust generic parameter `A` is instantiated
(always one of the primitive domains in the modelled code). -/
inductive Ty where
  | tInt
  | tBool
  | tStr
deriving DecidableEq, Repr

/-- The closed union of values stored behind `Rc<Box<dyn Any>>`. -/
inductive Value where
  | vi : Int → Value
  | vb : Bool → Value
  | vs : String → Value
deriving DecidableEq, Repr

namespace Value

/-- Runtime tag of a stored value. -/
def ty : Value → Ty
  | vi _ => .tInt
  | vb _ => .tBool
  | vs _ => .tStr

/-- `downcast_ref::<A>`: succeeds exactly when the stored tag is `A`. -/
def downcast (v : Value) (τ : Ty) : Option Value :=
  if v.ty = τ then some v else none

/-- Reads a `bool` out of a value; the Rust code only ever does this on values
statically typed `bool`, so the default branch is never exercised by
well-typed programs. -/
def asBool : Value → Bool
  | vb b => b
  | _ => false

end Value

/-- Rust `i32::from_str` on a digit string (helper): accumulates decimal
digits, `none` on a non-digit. -/
def digitsToNat? : List Char → Option Nat
  | [] => none
  | cs => cs.foldl
      (fun acc c => acc.bind fun n => if c.isDigit then some (n * 10 + (c.toNat - 48)) else none)
      (some 0)

/-- Rust `i32::from_str`: optional sign, then digits, with the `i32` range
check (out-of-range input is an `Err`). -/
def parseI32? (s : String) : Option Int :=
  let core : List Char → Bool → Option Int := fun cs neg =>
    (digitsToNat? cs).bind fun n =>
      let v : Int := if neg then -(n : Int) else (n : Int)
      if -(2 ^ 31) ≤ v ∧ v < 2 ^ 31 then some v else none
  match s.toList with
  | '-' :: rest => core rest true
  | '+' :: rest => core rest false
  | cs => core cs false

/-- Rust `FromStr` at each modelled type: `bool::from_str` accepts exactly
"true"/"false"; `String::from_str` is infallible. -/
def parseAs (τ : Ty) (s : String) : Option Value :=
  match τ with
  | .tInt => (parseI32? s).map .vi
  | .tBool =>
      if s = "true" then some (.vb true)
      else if s = "false" then some (.vb false)
      else none
  | .tStr => some (.vs s)

/-- `Export` from src/crates/rf-core/src/export.rs: a map from `Path` to a
stored value, modelled as an association list (one entry per key). -/
structure Export where
  map : List (Path × Value)
deriving DecidableEq, Repr

namespace Export

/-- `Export::new` -/
def new : Export := ⟨[]⟩

/-- Raw `HashMap::get` (no downcast). -/
def lookup (e : Export) (p : Path) : Option Value :=
  (e.map.find? fun kv => kv.1 = p).map (·.2)

/-- `Export::put`: `HashMap::insert` replaces any previous entry at the key.
Insertion is modelled as prepending: `lookup` takes the first match, so an
older entry at the same path is shadowed, which is observationally
`HashMap::insert`. -/
def put (e : Export) (p : Path) (v : Value) : Export :=
  ⟨(p, v) :: e.map⟩

/-- `Export::get::<A>`: direct downcast first; if the stored value is a
`String` (post-deserialization), fall back to parsing it at `A`.
`Err` is modelled by `none`. -/
def get (e : Export) (τ : Ty) (p : Path) : Option Value :=
  (e.lookup p).bind fun v =>
    match v.downcast τ with
    | some v' => some v'
    | none =>
        match v with
        | .vs s => parseAs τ s
        | _ => none

/-- `Export::root::<A>` — `get(&Path::new()).unwrap()`; the panic on a failed
read is modelled by `none`. -/
def root (e : Export) (τ : Ty) : Option Value := e.get τ Path.new

end Export

/-- `Context` from src/crates/rf-core/src/context.rs. Sensor ids are the
strings wrapped by `SensorId`. -/
structure Context where
  selfId : Int
  localSensor : List (String × Value)
  nbrSensor : List (String × List (Int × Value))
  exports : List (Int × Export)
deriving DecidableEq, Repr

namespace Context

/-- `Context::read_export_value` -/
def readExportValue (c : Context) (τ : Ty) (id : Int) (p : Path) : Option Value :=
  ((c.exports.find? fun kv => kv.1 = id).map (·.2)).bind fun e => e.get τ p

end Context

/-- `VMStatus` from src/crates/rf-core/src/vm/vm_status.rs. -/
structure VMStatus where
  path : Path
  index : Int
  neighbour : Option Int
  stack : List (Path × Int × Option Int)
deriving DecidableEq, Repr

namespace VMStatus

/-- `VMStatus::new` -/
def new : VMStatus := ⟨Path.new, 0, none, []⟩

/-- `VMStatus::fold_into` -/
def foldInto (st : VMStatus) (n : Option Int) : VMStatus :=
  { st with neighbour := n }

/-- `VMStatus::fold_out` -/
def foldOut (st : VMStatus) : VMStatus :=
  { st with neighbour := none }

/-- `VMStatus::push`: saves `(path, index, neighbour)` on the front of the
stack. -/
def push (st : VMStatus) : VMStatus :=
  { st with stack := (st.path, st.index, st.neighbour) :: st.stack }

/-- `VMStatus::pop`: restores the front frame; panics (modelled `none`) on an
empty stack. -/
def pop (st : VMStatus) : Option VMStatus :=
  match st.stack with
  | [] => none
  | (p, i, n) :: rest => some ⟨p, i, n, rest⟩

/-- `VMStatus::nest`: extend the path with a slot and reset the sibling
index. -/
def nest (st : VMStatus) (s : Slot) : VMStatus :=
  { st with path := st.path.push s, index := 0 }

/-- `VMStatus::inc_index` -/
def incIndex (st : VMStatus) : VMStatus :=
  { st with index := st.index + 1 }

end VMStatus

/-- `RoundVM` from src/crates/rf-core/src/vm/round_vm.rs. The export stack is
a `Vec` whose *first* element is the "current" export (`export_data` takes
`first_mut`), while `new_export_stack` pushes at the *end*; the list head
models `Vec` index 0. -/
structure RoundVM where
  context : Context
  status : VMStatus
  exportStack : List Export
  isolated : Bool
deriving DecidableEq, Repr

namespace RoundVM

/-- `RoundVM::new` -/
def mk0 (c : Context) : RoundVM := ⟨c, VMStatus.new, [], false⟩

/-- `RoundVM::self_id` -/
def selfId (vm : RoundVM) : Int := vm.context.selfId

/-- `RoundVM::export_data` reads `export_stack.first_mut().unwrap()`; the
panic on an empty stack is modelled by `none`. -/
def exportData (vm : RoundVM) : Option Export := vm.exportStack.head?

/-- Replace the current (first) export; `none` models the `export_data`
panic on an empty stack. -/
def withExportData (vm : RoundVM) (f : Export → Export) : Option RoundVM :=
  match vm.exportStack with
  | [] => none
  | e :: rest => some { vm with exportStack := f e :: rest }

/-- `RoundVM::register_root`: put the value at the empty path in the current
export. -/
def registerRoot (vm : RoundVM) (v : Value) : Option RoundVM :=
  vm.withExportData fun e => e.put Path.new v

/-- `RoundVM::new_export_stack`: `Vec::push` appends at the end. -/
def newExportStack (vm : RoundVM) : RoundVM :=
  { vm with exportStack := vm.exportStack ++ [Export.new] }

/-- `RoundVM::previous_round_val::<A>` -/
def previousRoundVal (vm : RoundVM) (τ : Ty) : Option Value :=
  vm.context.readExportValue τ vm.selfId vm.status.path

/-- `RoundVM::neighbor_val::<A>`: errs (modelled `none`) when not folding. -/
def neighborVal (vm : RoundVM) (τ : Ty) : Option Value :=
  vm.status.neighbour.bind fun n => vm.context.readExportValue τ n vm.status.path

/-- `RoundVM::unless_folding_on_others` -/
def unlessFoldingOnOthers (vm : RoundVM) : Bool :=
  match vm.status.neighbour with
  | some n => n = vm.selfId
  | none => true

/-- `RoundVM::aligned_neighbours::<A>`: empty when isolated; otherwise the
ids of the context exports (other than self) that are readable at the
current path (any neighbour is aligned at the root), with self prepended. -/
def alignedNeighbours (vm : RoundVM) (τ : Ty) : List Int :=
  if vm.isolated then []
  else
    vm.selfId ::
      ((vm.context.exports.filter fun kv =>
          ¬ kv.1 = vm.selfId ∧ (vm.status.path.isRoot ∨ (kv.2.get τ vm.status.path).isSome)).map
        (·.1))

end RoundVM

/-- The shape of an evaluated expression: a state transformer on the VM that
may panic (`none`). -/
abbrev EvalFn := RoundVM → Option (RoundVM × Value)

/-- `RoundVM::locally`: clear the neighbour for the duration of `expr`,
restoring the entry neighbour afterwards. -/
def locallyOp (f : EvalFn) : EvalFn := fun vm =>
  let current := vm.status.neighbour
  (f { vm with status := vm.status.foldOut }).map fun r =>
    ({ r.1 with status := r.1.status.foldInto current }, r.2)

/-- `RoundVM::folded_eval`: push the status, fold into the given neighbour,
run the body, pop, and wrap the result in `Some` (the Rust `Option`). The
outer `Option` models panics. -/
def foldedEvalOp (f : EvalFn) (id : Int) (vm : RoundVM) :
    Option (RoundVM × Option Value) :=
  (f { vm with status := (vm.status.push).foldInto (some id) }).bind fun r =>
    (r.1.status.pop).map fun st => ({ r.1 with status := st }, some r.2)

/-- `RoundVM::isolate` -/
def isolateOp (f : EvalFn) : EvalFn := fun vm =>
  let was := vm.isolated
  (f { vm with isolated := true }).map fun r =>
    ({ r.1 with isolated := was }, r.2)

/-- `RoundVM::nest`: save and nest the status, run the body, then (when
`write`) record the body's value. Rust's `Result::unwrap_or` evaluates its
argument eagerly, so `put_lazy_and_return` runs — and overwrites the entry —
even when the prior `get` succeeded; the value *returned* is the prior entry
when it was readable at `A`, else the body's value. Finally pop the saved
status, incrementing the sibling index when `inc`. -/
def nestOp (τ : Ty) (s : Slot) (write inc : Bool) (f : EvalFn) : EvalFn := fun vm =>
  (f { vm with status := (vm.status.push).nest s }).bind fun r =>
    let step : Option (RoundVM × Value) :=
      if write then
        match r.1.exportStack with
        | [] => none
        | e :: rest =>
            some ({ r.1 with exportStack := e.put r.1.status.path r.2 :: rest },
                  (e.get τ r.1.status.path).getD r.2)
      else some r
    step.bind fun r2 =>
      (r2.1.status.pop).map fun st =>
        ({ r2.1 with status := if inc then st.incIndex else st }, r2.2)

/-- `mid` from src/crates/rf-core/src/lang.rs. -/
def midImpl : EvalFn := fun vm => some (vm, .vi vm.selfId)

/-- `nbr` from src/crates/rf-core/src/lang.rs. -/
def nbrImpl (τ : Ty) (expr : EvalFn) : EvalFn := fun vm =>
  nestOp τ (.Nbr vm.status.index) vm.unlessFoldingOnOthers true
    (fun vm1 =>
      match vm1.status.neighbour with
      | some n =>
          if n = vm1.selfId then expr vm1
          else
            match vm1.neighborVal τ with
            | some val => some (vm1, val)
            | none => expr vm1
      | none => expr vm1)
    vm

/-- `rep` from src/crates/rf-core/src/lang.rs. -/
def repImpl (τ : Ty) (init : EvalFn) (step : Value → EvalFn) : EvalFn := fun vm =>
  nestOp τ (.Rep vm.status.index) vm.unlessFoldingOnOthers true
    (fun vm1 =>
      match vm1.previousRoundVal τ with
      | some prev => step prev vm1
      | none => (init vm1).bind fun r => step r.2 r.1)
    vm

/-- The per-neighbour loop of `foldhood`: thread the proxy VM through
`folded_eval` for each aligned id, substituting the local seed when a
contribution is absent (`opt.unwrap_or(local_init)`). -/
def foldNbrs (f : EvalFn) (seed : Value) : List Int → RoundVM → Option (RoundVM × List Value)
  | [], vm => some (vm, [])
  | id :: rest, vm =>
      (foldedEvalOp f id vm).bind fun r =>
        (foldNbrs f seed rest r.1).map fun r2 => (r2.1, r.2.getD seed :: r2.2)

/-- `foldhood` from src/crates/rf-core/src/lang.rs: nest a `FoldHood` slot
(always writing), evaluate `init` locally, collect one contribution per
aligned neighbour, then fold them from the seed under `isolate`. -/
def foldhoodImpl (τ : Ty) (init : EvalFn) (aggr : Value → Value → Value) (expr : EvalFn) :
    EvalFn := fun vm =>
  nestOp τ (.FoldHood vm.status.index) true true
    (fun vm1 =>
      (locallyOp init vm1).bind fun r =>
        let ids := r.1.alignedNeighbours τ
        (foldNbrs expr r.2 ids r.1).bind fun r2 =>
          isolateOp (fun v => some (v, r2.2.foldl aggr r.2)) r2.1)
    vm

/-- `branch` from src/crates/rf-core/src/lang.rs: the condition is a plain
closure `Fn() -> bool` (evaluated under `locally`); when folding on another
device the neighbour's export is read with `.unwrap()` — a read miss panics
(modelled `none`). -/
def branchImpl (τ : Ty) (cond : Bool) (thn els : EvalFn) : EvalFn := fun vm =>
  nestOp τ (.Branch vm.status.index) vm.unlessFoldingOnOthers true
    (fun vm1 =>
      (locallyOp (fun v => some (v, .vb cond)) vm1).bind fun r =>
        match r.1.status.neighbour with
        | some n =>
            if n = r.1.selfId then
              if cond then locallyOp thn r.1 else locallyOp els r.1
            else
              match r.1.neighborVal τ with
              | some val => some (r.1, val)
              | none => none
        | none => if cond then locallyOp thn r.1 else locallyOp els r.1)
    vm

/-- `mux` from src/crates/rf-core/src/lang/builtins.rs: evaluate the
condition and both branches, return the branch selected by the condition. -/
def muxImpl (cond th el : EvalFn) : EvalFn := fun vm =>
  (cond vm).bind fun rc =>
    (th rc.1).bind fun rt =>
      (el rt.1).map fun re =>
        (re.1, if rc.2.asBool then rt.2 else re.2)

/-- `foldhood_plus` from src/crates/rf-core/src/lang/builtins.rs: a foldhood
whose body replaces self's contribution by `init` via
`mux(self_id == nbr(mid()), init, expr)`. -/
def foldhoodPlusImpl (τ : Ty) (init : EvalFn) (aggr : Value → Value → Value)
    (expr : EvalFn) : EvalFn := fun vm =>
  foldhoodImpl τ init aggr
    (fun vm1 =>
      (midImpl vm1).bind fun r =>
        (nbrImpl .tInt midImpl r.1).bind fun r2 =>
          muxImpl (fun v => some (v, .vb (r.2 = r2.2))) init expr r2.1)
    vm

/-- Deep syntax of aggregate programs: operator sites of the language plus
the sequential glue of ordinary Rust code (`elet`/`var`/`app`). Pure Rust
computations appear as Lean functions on `Value`; the `Ty` argument of each
operator is the static type `A` at which the Rust generic is instantiated. -/
inductive Expr where
  | const : Value → Expr
  | mid : Expr
  | var : Nat → Expr
  | elet : Expr → Expr → Expr
  | app : (Value → Value) → Expr → Expr
  | nbr : Ty → Expr → Expr
  | rep : Ty → Expr → Expr → Expr
  | foldhood : Ty → Expr → (Value → Value → Value) → Expr → Expr
  | branch : Ty → Bool → Expr → Expr → Expr
  | mux : Expr → Expr → Expr → Expr
  | foldhoodPlus : Ty → Expr → (Value → Value → Value) → Expr → Expr

/-- Evaluation of a program against a `RoundVM`. The environment carries the
values bound by `elet` (and the previous-round value inside a `rep` step,
de Bruijn index 0). `none` models a Rust panic. -/
def eval : Expr → List Value → EvalFn
  | .const v, _, vm => some (vm, v)
  | .mid, _, vm => midImpl vm
  | .var n, env, vm => (env.get? n).map fun v => (vm, v)
  | .elet e1 e2, env, vm => (eval e1 env vm).bind fun r => eval e2 (r.2 :: env) r.1
  | .app f e, env, vm => (eval e env vm).map fun r => (r.1, f r.2)
  | .nbr τ e, env, vm => nbrImpl τ (fun v => eval e env v) vm
  | .rep τ i s, env, vm =>
      repImpl τ (fun v => eval i env v) (fun prev v => eval s (prev :: env) v) vm
  | .foldhood τ i g b, env, vm =>
      foldhoodImpl τ (fun v => eval i env v) g (fun v => eval b env v) vm
  | .branch τ c t e, env, vm =>
      branchImpl τ c (fun v => eval t env v) (fun v => eval e env v) vm
  | .mux c t e, env, vm =>
      muxImpl (fun v => eval c env v) (fun v => eval t env v) (fun v => eval e env v) vm
  | .foldhoodPlus τ i g b, env, vm =>
      foldhoodPlusImpl τ (fun v => eval i env v) g (fun v => eval b env v) vm

/-- `round` from src/crates/rf-core/src/lang/execution.rs: run the program,
register its value at the root path, and return the re-read root value. -/
def round (τ : Ty) (p : Expr) (vm : RoundVM) : Option (RoundVM × Value) :=
  (eval p [] vm).bind fun r =>
    (r.1.registerRoot r.2).bind fun vm2 =>
      (vm2.exportData.bind fun e => e.root τ).map fun res => (vm2, res)

/-- The contribution loop as the specification words it: exactly one
contribution per aligned device, with no substitution for an absent one.
Compared against `foldNbrs` (the loop as implemented, including the
`unwrap_or(local_init)` fallback). -/
def foldNbrsNoFallback (f : EvalFn) : List Int → RoundVM → Option (RoundVM × List Value)
  | [], vm => some (vm, [])
  | id :: rest, vm =>
      (foldedEvalOp f id vm).bind fun r =>
        match r.2 with
        | some v =>
            (foldNbrsNoFallback f rest r.1).map fun r2 => (r2.1, v :: r2.2)
        | none => none

/-! ## Mailboxes (src/crates/rf-distributed-impl/src/mailbox.rs)

`SystemTime` timestamps are modelled as `Nat`; `HashMap` iteration order as
association-list order; `BTreeMap<SystemTime, Message>` as an association
list kept sorted by ascending timestamp. -/

/-- `Message` from src/crates/rf-distributed/src/message.rs (fields
`source`, `export`, `timestamp`; the export field is named `payload` here
because `export` is a Lean keyword). -/
structure Message where
  source : Int
  payload : Export
  timestamp : Nat
deriving DecidableEq, Repr

/-- `MemoryLessMailbox`: one slot per neighbour, overwritten on enqueue. -/
structure MemoryLessMailbox where
  messages : List (Int × Message)
deriving DecidableEq, Repr

namespace MemoryLessMailbox

/-- `MailboxFactory::memory_less` -/
def empty : MemoryLessMailbox := ⟨[]⟩

/-- `Mailbox::enqueue` for `MemoryLessMailbox`: `HashMap::insert` keyed by
the message source. -/
def enqueue (mb : MemoryLessMailbox) (m : Message) : MemoryLessMailbox :=
  ⟨(m.source, m) :: mb.messages.filter fun kv => ¬ kv.1 = m.source⟩

/-- `Mailbox::messages` for `MemoryLessMailbox`: returns the stored map
unchanged. -/
def messagesFn (mb : MemoryLessMailbox) : List (Int × Message) := mb.messages

end MemoryLessMailbox

/-- `BTreeMap::insert` on a timestamp-sorted association list (replacing an
entry with an equal key). -/
def btInsert (t : Nat) (m : Message) : List (Nat × Message) → List (Nat × Message)
  | [] => [(t, m)]
  | (t', m') :: rest =>
      if t < t' then (t, m) :: (t', m') :: rest
      else if t = t' then (t, m) :: rest
      else (t', m') :: btInsert t m rest

/-- `BTreeMap::pop_first`: the entry with the least key, and the rest. -/
def popFirstEntry : List (Nat × Message) → Option Message × List (Nat × Message)
  | [] => (none, [])
  | (_, m) :: rest => (some m, rest)

/-- `BTreeMap::pop_last`: the entry with the greatest key, and the rest. -/
def popLastEntry (l : List (Nat × Message)) : Option Message × List (Nat × Message) :=
  match l.getLast? with
  | none => (none, [])
  | some (_, m) => (some m, l.dropLast)

/-- `TimeOrderedMailbox`: every message kept, ordered by timestamp per
neighbour; `pop_first = true` is the least-recent (FIFO) policy,
`pop_first = false` the most-recent (LIFO) policy. -/
structure TimeOrderedMailbox where
  messages : List (Int × List (Nat × Message))
  popFirst : Bool
deriving DecidableEq, Repr

namespace TimeOrderedMailbox

/-- `MailboxFactory::most_recent` -/
def mostRecent : TimeOrderedMailbox := ⟨[], false⟩

/-- `MailboxFactory::least_recent` -/
def leastRecent : TimeOrderedMailbox := ⟨[], true⟩

/-- `Mailbox::enqueue` for `TimeOrderedMailbox`:
`messages.entry(msg.source).or_default().insert(msg.timestamp, msg)`. -/
def enqueue (mb : TimeOrderedMailbox) (m : Message) : TimeOrderedMailbox :=
  if (mb.messages.find? fun kv => kv.1 = m.source).isSome then
    ⟨mb.messages.map fun kv =>
        if kv.1 = m.source then (kv.1, btInsert m.timestamp m kv.2) else kv,
      mb.popFirst⟩
  else
    ⟨mb.messages ++ [(m.source, btInsert m.timestamp m [])], mb.popFirst⟩

/-- `Mailbox::messages` for `TimeOrderedMailbox`: drains one message per
neighbour (first or last by timestamp according to the policy), mutating the
stored trees; neighbours with an empty tree contribute nothing. -/
def messagesFn (mb : TimeOrderedMailbox) :
    List (Int × Message) × TimeOrderedMailbox :=
  let step := mb.messages.map fun kv =>
    (kv.1, if mb.popFirst then popFirstEntry kv.2 else popLastEntry kv.2)
  (step.filterMap fun kv => kv.2.1.map fun m => (kv.1, m),
   ⟨step.map fun kv => (kv.1, kv.2.2), mb.popFirst⟩)

end TimeOrderedMailbox

/-! ## Concrete fixtures used by counterexamples and witnesses -/

/-- A single isolated device with id 0: no sensors, no neighbour exports. -/
def ctx0 : Context := ⟨0, [], [], []⟩

/-- A fresh `RoundVM` over `ctx0` after `new_export_stack` (the state the
repository's own test helper `init_with_ctx` produces). -/
def vm0 : RoundVM := ⟨ctx0, VMStatus.new, [Export.new], false⟩

/-- The path of the first `nbr` site at top level. -/
def pathNbr0 : Path := ⟨[.Nbr 0]⟩

/-- A VM whose current export is already populated at `pathNbr0`. -/
def vmSeeded7 : RoundVM := ⟨ctx0, VMStatus.new, [⟨[(pathNbr0, .vi 7)]⟩], false⟩

/-- Another VM populated at `pathNbr0`, used for the `nbr` counterexample. -/
def vmSeeded99 : RoundVM := ⟨ctx0, VMStatus.new, [⟨[(pathNbr0, .vi 99)]⟩], false⟩

/-- Device 0 with one neighbour (device 1) whose last export is empty. -/
def ctxNbr1 : Context := ⟨0, [], [], [(1, Export.new)]⟩

/-- A VM currently folding on neighbour 1 (≠ self 0): the state `branch`
reaches through `folded_eval` when the fold visits device 1. -/
def vmFoldingOn1 : RoundVM :=
  ⟨ctxNbr1, { VMStatus.new with neighbour := some 1 }, [Export.new], false⟩

/-- Integer addition on values (an example aggregation). -/
def addV : Value → Value → Value
  | .vi a, .vi b => .vi (a + b)
  | a, _ => a

/-! ## Invariant language -/

/-- Lookup in the current (first) export of the stack. -/
def headLookup (vm : RoundVM) (p : Path) : Option Value :=
  vm.exportStack.head?.bind fun e => e.lookup p

/-- What a completed operator evaluation preserves of the VM: the context and
isolation flag, the status path, neighbour and save stack (the sibling index
may advance), and the shape of the export stack. -/
structure Pres (vm vm' : RoundVM) : Prop where
  ctx : vm'.context = vm.context
  iso : vm'.isolated = vm.isolated
  path : vm'.status.path = vm.status.path
  nb : vm'.status.neighbour = vm.status.neighbour
  stk : vm'.status.stack = vm.status.stack
  len : vm'.exportStack.length = vm.exportStack.length

/-- A well-behaved evaluator: on success it preserves the VM shape (`Pres`)
and only writes the current export at paths strictly deeper than the status
path at entry. -/
def GoodFn (f : EvalFn) : Prop :=
  ∀ vm r, f vm = some r → Pres vm r.1 ∧
    ∀ p, p.slots.length ≤ vm.status.path.slots.length →
      headLookup r.1 p = headLookup vm p

/-! # Theorems -/

theorem presRefl {vm : RoundVM} : Pres vm vm := ⟨rfl, rfl, rfl, rfl, rfl, rfl⟩

theorem presComp {a b c : RoundVM} (h1 : Pres a b) (h2 : Pres b c) : Pres a c :=
  ⟨h2.ctx.trans h1.ctx, h2.iso.trans h1.iso, h2.path.trans h1.path,
   h2.nb.trans h1.nb, h2.stk.trans h1.stk, h2.len.trans h1.len⟩

/-- `HashMap::insert` then `get` at the same key yields the inserted value. -/
theorem Export.lookup_put_self (e : Export) (p : Path) (v : Value) :
    (e.put p v).lookup p = some v := by
  simp [Export.put, Export.lookup, List.find?_cons]

/-- `HashMap::insert` leaves lookups at other keys unchanged. -/
theorem Export.lookup_put_ne (e : Export) (p q : Path) (v : Value) (h : ¬ q = p) :
    (e.put p v).lookup q = e.lookup q := by
  have hpq : ¬ p = q := fun hh => h hh.symm
  simp [Export.put, Export.lookup, List.find?_cons, hpq]

/-- `Export::get` only depends on the raw lookup at the path. -/
theorem Export.get_congr (e1 e2 : Export) (τ : Ty) (p : Path)
    (h : e1.lookup p = e2.lookup p) : e1.get τ p = e2.get τ p := by
  unfold Export.get
  rw [h]

theorem Path.ne_of_length_lt {p q : Path} (h : p.slots.length < q.slots.length) :
    ¬ p = q := fun hh => by subst hh; exact lt_irrefl _ h

/-! ## Every operator evaluation preserves the VM shape (`GoodFn`) -/

theorem goodFn_locally {f : EvalFn} (hf : GoodFn f) : GoodFn (locallyOp f) := by
  intro vm r h
  unfold locallyOp at h
  rcases Option.map_eq_some'.mp h with ⟨r1, hm, hg⟩
  subst hg
  obtain ⟨hp, hl⟩ := hf _ _ hm
  refine ⟨⟨hp.ctx, hp.iso, ?_, ?_, ?_, hp.len⟩, ?_⟩
  · simpa [VMStatus.foldInto, VMStatus.foldOut] using hp.path
  · simp [VMStatus.foldInto]
  · simpa [VMStatus.foldInto, VMStatus.foldOut] using hp.stk
  · intro p hpl
    have := hl p (by simpa [VMStatus.foldOut] using hpl)
    simpa [headLookup] using this

theorem goodFn_isolate {f : EvalFn} (hf : GoodFn f) : GoodFn (isolateOp f) := by
  intro vm r h
  unfold isolateOp at h
  rcases Option.map_eq_some'.mp h with ⟨r1, hm, hg⟩
  subst hg
  obtain ⟨hp, hl⟩ := hf _ _ hm
  exact ⟨⟨hp.ctx, rfl, hp.path, hp.nb, hp.stk, hp.len⟩, fun p hpl => hl p hpl⟩

theorem good_foldedEval {f : EvalFn} (hf : GoodFn f) (id : Int) (vm : RoundVM)
    (r : RoundVM × Option Value) (h : foldedEvalOp f id vm = some r) :
    (Pres vm r.1 ∧ r.1.status.index = vm.status.index) ∧
      ∀ p, p.slots.length ≤ vm.status.path.slots.length →
        headLookup r.1 p = headLookup vm p := by
  unfold foldedEvalOp at h
  rcases Option.bind_eq_some.mp h with ⟨r1, hm, h2⟩
  rcases Option.map_eq_some'.mp h2 with ⟨st, hpop, hg⟩
  subst hg
  obtain ⟨hp, hl⟩ := hf _ _ hm
  have hstk : r1.1.status.stack =
      (vm.status.path, vm.status.index, vm.status.neighbour) :: vm.status.stack := by
    simpa [VMStatus.foldInto, VMStatus.push] using hp.stk
  have hst : st = ⟨vm.status.path, vm.status.index, vm.status.neighbour, vm.status.stack⟩ := by
    unfold VMStatus.pop at hpop
    rw [hstk] at hpop
    simpa using hpop.symm
  refine ⟨⟨⟨hp.ctx, hp.iso, by simp [hst], by simp [hst], by simp [hst], hp.len⟩,
    by simp [hst]⟩, ?_⟩
  intro p hpl
  have := hl p (by simpa [VMStatus.foldInto, VMStatus.push] using hpl)
  simpa [headLookup] using this

theorem goodFn_nest {f : EvalFn} (τ : Ty) (s : Slot) (w i : Bool) (hf : GoodFn f) :
    GoodFn (nestOp τ s w i f) := by
  intro vm r h
  unfold nestOp at h
  rcases Option.bind_eq_some.mp h with ⟨r1, hm, h2⟩
  rcases Option.bind_eq_some.mp h2 with ⟨r2, hw, h3⟩
  rcases Option.map_eq_some'.mp h3 with ⟨st, hpop, hg⟩
  subst hg
  obtain ⟨hp, hl⟩ := hf _ _ hm
  have hstk : r1.1.status.stack =
      (vm.status.path, vm.status.index, vm.status.neighbour) :: vm.status.stack := by
    simpa [VMStatus.nest, VMStatus.push] using hp.stk
  have hpath : r1.1.status.path = vm.status.path.push s := by
    simpa [VMStatus.nest, VMStatus.push] using hp.path
  -- the write step leaves the status untouched and the export stack length fixed
  have hw2 : r2.1.status = r1.1.status ∧
      r2.1.context = r1.1.context ∧ r2.1.isolated = r1.1.isolated ∧
      r2.1.exportStack.length = r1.1.exportStack.length ∧
      ∀ p, ¬ p = r1.1.status.path → headLookup r2.1 p = headLookup r1.1 p := by
    cases w with
    | true =>
        simp only [if_true] at hw
        rcases hes : r1.1.exportStack with _ | ⟨e, rest⟩
        · rw [hes] at hw; simp at hw
        · rw [hes] at hw
          simp only [Option.some.injEq] at hw
          subst hw
          refine ⟨rfl, rfl, rfl, by simp [hes], ?_⟩
          intro p hne
          simp [headLookup, hes, Export.lookup_put_ne _ _ _ _ hne]
    | false =>
        simp only [Bool.false_eq_true, if_false, Option.some.injEq] at hw
        subst hw
        exact ⟨rfl, rfl, rfl, rfl, fun _ _ => rfl⟩
  have hst : st = ⟨vm.status.path, vm.status.index, vm.status.neighbour, vm.status.stack⟩ := by
    unfold VMStatus.pop at hpop
    rw [hw2.1, hstk] at hpop
    simpa using hpop.symm
  refine ⟨⟨(hw2.2.1.trans hp.ctx), (hw2.2.2.1.trans hp.iso), ?_, ?_, ?_,
    (hw2.2.2.2.1.trans hp.len)⟩, ?_⟩
  · cases i <;> simp [hst, VMStatus.incIndex]
  · cases i <;> simp [hst, VMStatus.incIndex]
  · cases i <;> simp [hst, VMStatus.incIndex]
  · intro p hpl
    have hne : ¬ p = r1.1.status.path := by
      rw [hpath]
      exact Path.ne_of_length_lt (by simp [Path.push]; omega)
    have e1 := hw2.2.2.2.2 p hne
    have e2 := hl p (by simp [VMStatus.nest, VMStatus.push, Path.push]; omega)
    have : headLookup r2.1 p = headLookup vm p := by
      rw [e1]; simpa [headLookup] using e2
    simpa [headLookup] using this

theorem goodFn_pure (g : RoundVM → Value) : GoodFn (fun vm => some (vm, g vm)) := by
  intro vm r h
  simp only [Option.some.injEq] at h
  subst h
  exact ⟨presRefl, fun _ _ => rfl⟩

theorem goodFn_mid : GoodFn midImpl := goodFn_pure _

theorem good_seq {f : EvalFn} {g : Value → EvalFn} (hf : GoodFn f) (hg : ∀ v, GoodFn (g v)) :
    GoodFn (fun vm => (f vm).bind fun r => g r.2 r.1) := by
  intro vm r h
  rcases Option.bind_eq_some.mp h with ⟨r1, h1, h2⟩
  obtain ⟨hp1, hl1⟩ := hf _ _ h1
  obtain ⟨hp2, hl2⟩ := hg r1.2 _ _ h2
  exact ⟨presComp hp1 hp2, fun p hpl => by
    rw [hl2 p (by rw [hp1.path]; exact hpl), hl1 p hpl]⟩

theorem good_foldNbrs {f : EvalFn} (hf : GoodFn f) (seed : Value) (ids : List Int) :
    ∀ (vm : RoundVM) (r : RoundVM × List Value), foldNbrs f seed ids vm = some r →
      Pres vm r.1 ∧ ∀ p, p.slots.length ≤ vm.status.path.slots.length →
        headLookup r.1 p = headLookup vm p := by
  induction ids with
  | nil =>
      intro vm r h
      simp only [foldNbrs, Option.some.injEq] at h
      subst h
      exact ⟨presRefl, fun _ _ => rfl⟩
  | cons id rest ih =>
      intro vm r h
      simp only [foldNbrs] at h
      rcases Option.bind_eq_some.mp h with ⟨r1, h1, h2⟩
      rcases Option.map_eq_some'.mp h2 with ⟨r2, hm, hg⟩
      subst hg
      obtain ⟨⟨hp1, _⟩, hl1⟩ := good_foldedEval hf id vm r1 h1
      obtain ⟨hp2, hl2⟩ := ih r1.1 r2 hm
      refine ⟨presComp hp1 hp2, ?_⟩
      intro p hpl
      rw [hl2 p (by rw [hp1.path]; exact hpl), hl1 p hpl]

theorem goodFn_mux {c t e : EvalFn} (hc : GoodFn c) (ht : GoodFn t) (he : GoodFn e) :
    GoodFn (muxImpl c t e) := by
  intro vm r h
  unfold muxImpl at h
  rcases Option.bind_eq_some.mp h with ⟨rc, h1, h2⟩
  rcases Option.bind_eq_some.mp h2 with ⟨rt, h3, h4⟩
  rcases Option.map_eq_some'.mp h4 with ⟨re, h5, hg⟩
  subst hg
  obtain ⟨hp1, hl1⟩ := hc _ _ h1
  obtain ⟨hp2, hl2⟩ := ht _ _ h3
  obtain ⟨hp3, hl3⟩ := he _ _ h5
  refine ⟨presComp hp1 (presComp hp2 hp3), ?_⟩
  intro p hpl
  rw [hl3 p (by rw [hp2.path, hp1.path]; exact hpl),
      hl2 p (by rw [hp1.path]; exact hpl), hl1 p hpl]

theorem goodFn_nbr {f : EvalFn} (τ : Ty) (hf : GoodFn f) : GoodFn (nbrImpl τ f) := by
  intro vm r h
  unfold nbrImpl at h
  refine goodFn_nest τ _ _ _ ?_ vm r h
  intro vm1 r1 h1
  rcases hnb : vm1.status.neighbour with _ | n
  · simp only [hnb] at h1; exact hf _ _ h1
  · simp only [hnb] at h1
    by_cases hns : n = vm1.selfId
    · rw [if_pos hns] at h1; exact hf _ _ h1
    · rw [if_neg hns] at h1
      rcases hnv : vm1.neighborVal τ with _ | val
      · simp only [hnv] at h1; exact hf _ _ h1
      · simp only [hnv, Option.some.injEq] at h1
        subst h1
        exact ⟨presRefl, fun _ _ => rfl⟩

theorem goodFn_rep {init : EvalFn} {step : Value → EvalFn} (τ : Ty)
    (hi : GoodFn init) (hs : ∀ v, GoodFn (step v)) : GoodFn (repImpl τ init step) := by
  intro vm r h
  unfold repImpl at h
  refine goodFn_nest τ _ _ _ ?_ vm r h
  intro vm1 r1 h1
  rcases hpv : vm1.previousRoundVal τ with _ | prev
  · simp only [hpv] at h1
    exact good_seq hi hs _ _ h1
  · simp only [hpv] at h1; exact hs prev _ _ h1

theorem goodFn_branch {thn els : EvalFn} (τ : Ty) (c : Bool)
    (ht : GoodFn thn) (he : GoodFn els) : GoodFn (branchImpl τ c thn els) := by
  intro vm r h
  unfold branchImpl at h
  refine goodFn_nest τ _ _ _ ?_ vm r h
  intro vm1 r1 h1
  rcases Option.bind_eq_some.mp h1 with ⟨rc, hc1, h2⟩
  obtain ⟨hp1, hl1⟩ := (goodFn_locally (goodFn_pure fun _ => Value.vb c)) _ _ hc1
  have hcont : Pres rc.1 r1.1 ∧ ∀ p, p.slots.length ≤ rc.1.status.path.slots.length →
      headLookup r1.1 p = headLookup rc.1 p := by
    rcases hnb : rc.1.status.neighbour with _ | n
    · simp only [hnb] at h2
      cases c with
      | true => exact (goodFn_locally ht) _ _ (by simpa using h2)
      | false => exact (goodFn_locally he) _ _ (by simpa using h2)
    · simp only [hnb] at h2
      by_cases hns : n = rc.1.selfId
      · rw [if_pos hns] at h2
        cases c with
        | true => exact (goodFn_locally ht) _ _ (by simpa using h2)
        | false => exact (goodFn_locally he) _ _ (by simpa using h2)
      · rw [if_neg hns] at h2
        rcases hnv : rc.1.neighborVal τ with _ | val
        · simp only [hnv] at h2; simp at h2
        · simp only [hnv, Option.some.injEq] at h2
          subst h2
          exact ⟨presRefl, fun _ _ => rfl⟩
  exact ⟨presComp hp1 hcont.1, fun p hpl => by
    rw [hcont.2 p (by rw [hp1.path]; exact hpl), hl1 p hpl]⟩

theorem goodFn_foldhood {init expr : EvalFn} (τ : Ty) (aggr : Value → Value → Value)
    (hi : GoodFn init) (hx : GoodFn expr) : GoodFn (foldhoodImpl τ init aggr expr) := by
  intro vm r h
  unfold foldhoodImpl at h
  refine goodFn_nest τ _ _ _ ?_ vm r h
  intro vm1 r1 h1
  rcases Option.bind_eq_some.mp h1 with ⟨ri, hi1, h2⟩
  rcases Option.bind_eq_some.mp h2 with ⟨rn, hn1, h3⟩
  obtain ⟨hpi, hli⟩ := (goodFn_locally hi) _ _ hi1
  obtain ⟨hpn, hln⟩ := good_foldNbrs hx ri.2 _ ri.1 rn hn1
  obtain ⟨hpf, hlf⟩ := (goodFn_isolate (goodFn_pure fun _ => rn.2.foldl aggr ri.2)) _ _ h3
  refine ⟨presComp hpi (presComp hpn hpf), ?_⟩
  intro p hpl
  rw [hlf p (by rw [hpn.path, hpi.path]; exact hpl),
      hln p (by rw [hpi.path]; exact hpl), hli p hpl]

theorem goodFn_foldhoodPlus {init expr : EvalFn} (τ : Ty) (aggr : Value → Value → Value)
    (hi : GoodFn init) (hx : GoodFn expr) : GoodFn (foldhoodPlusImpl τ init aggr expr) := by
  intro vm r h
  unfold foldhoodPlusImpl at h
  refine goodFn_foldhood τ aggr hi ?_ vm r h
  intro vm1 r1 h1
  rcases Option.bind_eq_some.mp h1 with ⟨rm, hm1, h2⟩
  rcases Option.bind_eq_some.mp h2 with ⟨rn, hn1, h3⟩
  obtain ⟨hpm, hlm⟩ := goodFn_mid _ _ hm1
  obtain ⟨hpn, hln⟩ := goodFn_nbr .tInt goodFn_mid _ _ hn1
  obtain ⟨hpx, hlx⟩ := goodFn_mux (goodFn_pure fun _ => Value.vb (decide (rm.2 = rn.2))) hi hx _ _ h3
  refine ⟨presComp hpm (presComp hpn hpx), ?_⟩
  intro p hpl
  rw [hlx p (by rw [hpn.path, hpm.path]; exact hpl),
      hln p (by rw [hpm.path]; exact hpl), hlm p hpl]

/-- Every program evaluation, on success, restores the status path, the
folding neighbour and the save stack, keeps the context, isolation flag and
export-stack shape, and writes the current export only at paths strictly
deeper than the status path at entry. -/
theorem eval_good (e : Expr) : ∀ env, GoodFn (eval e env) := by
  induction e with
  | const v =>
      intro env vm r h
      simp only [eval, Option.some.injEq] at h
      subst h
      exact ⟨presRefl, fun _ _ => rfl⟩
  | mid =>
      intro env vm r h
      exact goodFn_mid vm r (by simpa [eval] using h)
  | var n =>
      intro env vm r h
      simp only [eval] at h
      rcases Option.map_eq_some'.mp h with ⟨v, _, hg⟩
      subst hg
      exact ⟨presRefl, fun _ _ => rfl⟩
  | elet e1 e2 ih1 ih2 =>
      intro env vm r h
      exact good_seq (ih1 env) (fun v => ih2 (v :: env)) vm r (by simpa [eval] using h)
  | app f e ih =>
      intro env vm r h
      simp only [eval] at h
      rcases Option.map_eq_some'.mp h with ⟨r1, h1, hg⟩
      subst hg
      obtain ⟨hp, hl⟩ := ih env _ _ h1
      exact ⟨⟨hp.ctx, hp.iso, hp.path, hp.nb, hp.stk, hp.len⟩, hl⟩
  | nbr τ e ih =>
      intro env vm r h
      exact goodFn_nbr τ (ih env) vm r (by simpa [eval] using h)
  | rep τ i s ih1 ih2 =>
      intro env vm r h
      exact goodFn_rep τ (ih1 env) (fun v => ih2 (v :: env)) vm r (by simpa [eval] using h)
  | foldhood τ i g b ih1 ih2 =>
      intro env vm r h
      exact goodFn_foldhood τ g (ih1 env) (ih2 env) vm r (by simpa [eval] using h)
  | branch τ c t e ih1 ih2 =>
      intro env vm r h
      exact goodFn_branch τ c (ih1 env) (ih2 env) vm r (by simpa [eval] using h)
  | mux c t e ihc iht ihe =>
      intro env vm r h
      exact goodFn_mux (ihc env) (iht env) (ihe env) vm r (by simpa [eval] using h)
  | foldhoodPlus τ i g b ih1 ih2 =>
      intro env vm r h
      exact goodFn_foldhoodPlus τ g (ih1 env) (ih2 env) vm r (by simpa [eval] using h)

/-- Characterization of `nest` with `write = true`: the prior entry readable
at `A` (if any) is what `nest` returns, while the stored entry is
unconditionally replaced by the body's value. -/
theorem nest_write_spec (τ : Ty) (s : Slot) (i : Bool) (f : EvalFn)
    (vm : RoundVM) (r : RoundVM × Value) (ex1 : Export) (rest1 : List Export)
    (st' : VMStatus)
    (hf : f { vm with status := (vm.status.push).nest s } = some r)
    (hes : r.1.exportStack = ex1 :: rest1)
    (hpop : r.1.status.pop = some st') :
    nestOp τ s true i f vm =
      some ({ r.1 with exportStack := (ex1.put r.1.status.path r.2 :: rest1),
                       status := if i then st'.incIndex else st' },
            (ex1.get τ r.1.status.path).getD r.2) := by
  unfold nestOp
  rw [hf]
  simp only [Option.some_bind, if_true, hes, hpop, Option.map_some']

/-- Claim C1: for every program and every VM whose export stack holds a
current export, `round` returns the value the program computed, and the
current export afterwards holds that value at the root (empty) path. The
program is assumed to complete (`eval … = some r`) and to be well-typed: its
result carries the runtime tag of the type `A` at which `round` re-reads the
root. -/
theorem round_returns_value_and_registers_root
    (τ : Ty) (p : Expr) (vm : RoundVM) (r : RoundVM × Value)
    (hstack : vm.exportStack ≠ [])
    (he : eval p [] vm = some r) (hty : r.2.ty = τ) :
    ∃ vm2, round τ p vm = some (vm2, r.2) ∧
      (vm2.exportData.bind fun e => e.lookup Path.new) = some r.2 := by
  obtain ⟨hp, _⟩ := eval_good p [] vm r he
  rcases hes : r.1.exportStack with _ | ⟨e, rest⟩
  · exfalso
    have := hp.len
    rw [hes] at this
    exact hstack (List.length_eq_zero.mp this.symm)
  · have hreg : r.1.registerRoot r.2 =
        some { r.1 with exportStack := e.put Path.new r.2 :: rest } := by
      simp [RoundVM.registerRoot, RoundVM.withExportData, hes]
    have hroot : (e.put Path.new r.2).root τ = some r.2 := by
      simp [Export.root, Export.get, Export.lookup_put_self, Value.downcast, hty]
    refine ⟨{ r.1 with exportStack := e.put Path.new r.2 :: rest }, ?_, ?_⟩
    · simp [round, he, hreg, RoundVM.exportData, hroot]
    · simp [RoundVM.exportData, Export.lookup_put_self]

/-- Witness for C1 at a concrete program and VM. -/
theorem round_returns_value_and_registers_root_witness :
    ∃ vm2, round .tInt (.const (.vi 3)) vm0 = some (vm2, .vi 3) ∧
      (vm2.exportData.bind fun e => e.lookup Path.new) = some (Value.vi 3) :=
  round_returns_value_and_registers_root .tInt (.const (.vi 3)) vm0 (vm0, .vi 3)
    (by decide) rfl rfl

/-- Claim C4, counterexample: after `round` of the single-operator program
`nbr(0)` on a fresh VM, the sibling index is 1, so the VMStatus does not
return to its initial state (`VMStatus::new`). -/
theorem round_status_not_initial_counterexample :
    ((round .tInt (.nbr .tInt (.const (.vi 0))) vm0).map fun r => r.1.status) =
        some ⟨Path.new, 1, none, []⟩ ∧
      (⟨Path.new, 1, none, []⟩ : VMStatus) ≠ VMStatus.new := by
  exact ⟨rfl, by decide⟩

/-- Claim C4 (amended): after `round` on a VM in the initial status, the
path, the folding neighbour and the save stack are back to their initial
values (empty, none, empty); the sibling index instead counts the top-level
operator sites the program evaluated, so it need not be 0. -/
theorem round_restores_path_neighbour_stack
    (τ : Ty) (p : Expr) (vm : RoundVM) (r : RoundVM × Value)
    (hinit : vm.status = VMStatus.new) (h : round τ p vm = some r) :
    r.1.status.path = Path.new ∧ r.1.status.neighbour = none ∧
      r.1.status.stack = [] := by
  unfold round at h
  rcases Option.bind_eq_some.mp h with ⟨r1, h1, h2⟩
  rcases Option.bind_eq_some.mp h2 with ⟨vm2, hreg, h3⟩
  rcases Option.map_eq_some'.mp h3 with ⟨res, _, hg⟩
  subst hg
  obtain ⟨hp, _⟩ := eval_good p [] vm r1 h1
  have hst : vm2.status = r1.1.status := by
    unfold RoundVM.registerRoot RoundVM.withExportData at hreg
    rcases hes : r1.1.exportStack with _ | ⟨e, rest⟩
    · rw [hes] at hreg; simp at hreg
    · rw [hes] at hreg
      simp only [Option.some.injEq] at hreg
      subst hreg
      rfl
  refine ⟨?_, ?_, ?_⟩
  · simpa [hst, hinit, VMStatus.new] using hp.path
  · simpa [hst, hinit, VMStatus.new] using hp.nb
  · simpa [hst, hinit, VMStatus.new] using hp.stk

/-- Witness for the amended C4 at a concrete program and VM. -/
theorem round_restores_path_neighbour_stack_witness :
    (⟨ctx0, VMStatus.new, [⟨[(Path.new, .vi 0)]⟩], false⟩ : RoundVM).status.path = Path.new ∧
      (⟨ctx0, VMStatus.new, [⟨[(Path.new, .vi 0)]⟩], false⟩ : RoundVM).status.neighbour = none ∧
      (⟨ctx0, VMStatus.new, [⟨[(Path.new, .vi 0)]⟩], false⟩ : RoundVM).status.stack = [] :=
  round_restores_path_neighbour_stack .tInt (.const (.vi 0)) vm0
    (⟨⟨ctx0, VMStatus.new, [⟨[(Path.new, .vi 0)]⟩], false⟩, .vi 0⟩) rfl rfl

/-- Claim C10: push/head and push/pull round-trip on every path, and on the
root (empty) path `head` and `pull` panic (`first().unwrap()` and an
out-of-bounds `drain`, both modelled by `none`) instead of returning an
error value. -/
theorem path_push_head_pull_roundtrip :
    (∀ (p : Path) (s : Slot), (p.push s).head = some s ∧ (p.push s).pull = some p) ∧
      Path.head Path.new = none ∧ Path.pull Path.new = none :=
  ⟨fun _ _ => ⟨rfl, rfl⟩, rfl, rfl⟩

/-- Claim C9: `folded_eval` always wraps its result in `Some` (never
`None`), hence the `unwrap_or(local_init)` fallback in `foldhood` is
unreachable — the implemented contribution loop equals the fallback-free
loop for every seed — and the contribution vector holds exactly one
expression result per aligned device. -/
theorem foldedEval_always_some :
    (∀ (f : EvalFn) (id : Int) (vm : RoundVM) (r : RoundVM × Option Value),
        foldedEvalOp f id vm = some r → ∃ v, r.2 = some v) ∧
      (∀ (f : EvalFn) (seed : Value) (ids : List Int) (vm : RoundVM),
        foldNbrs f seed ids vm = foldNbrsNoFallback f ids vm) ∧
      (∀ (f : EvalFn) (seed : Value) (ids : List Int) (vm : RoundVM)
          (r : RoundVM × List Value),
        foldNbrs f seed ids vm = some r → r.2.length = ids.length) := by
  have key : ∀ (f : EvalFn) (id : Int) (vm : RoundVM) (r : RoundVM × Option Value),
      foldedEvalOp f id vm = some r → ∃ v, r.2 = some v := by
    intro f id vm r h
    unfold foldedEvalOp at h
    rcases Option.bind_eq_some.mp h with ⟨r1, _, h2⟩
    rcases Option.map_eq_some'.mp h2 with ⟨st, _, hg⟩
    subst hg
    exact ⟨r1.2, rfl⟩
  refine ⟨key, ?_, ?_⟩
  · intro f seed ids
    induction ids with
    | nil => intro vm; rfl
    | cons id rest ih =>
        intro vm
        simp only [foldNbrs, foldNbrsNoFallback]
        rcases hfe : foldedEvalOp f id vm with _ | r1
        · rfl
        · obtain ⟨v, hv⟩ := key f id vm r1 hfe
          simp [hv, ih]
  · intro f seed ids
    induction ids with
    | nil =>
        intro vm r h
        simp only [foldNbrs, Option.some.injEq] at h
        subst h
        rfl
    | cons id rest ih =>
        intro vm r h
        simp only [foldNbrs] at h
        rcases Option.bind_eq_some.mp h with ⟨r1, _, h2⟩
        rcases Option.map_eq_some'.mp h2 with ⟨r2, hm, hg⟩
        subst hg
        simpa using ih r1.1 r2 hm

/-- Witness for C9 at a concrete body, neighbour id and VM. -/
theorem foldedEval_always_some_witness :
    ∃ v, ((vm0, some (Value.vi 3)) : RoundVM × Option Value).2 = some v :=
  foldedEval_always_some.1 (fun vm => some (vm, .vi 3)) 5 vm0 (vm0, some (.vi 3)) rfl

/-- Claim C3, counterexample: on a VM whose current export already holds `7`
at the nested path, `nest(Nbr(0), write=true, …)` with a body returning `9`
overwrites the stored entry with `9` while returning the old `7`:
`Result::unwrap_or` evaluates its argument eagerly, so `put_lazy_and_return`
runs even when the prior `get` succeeded. The claim's "the previously
written value is kept (never overwritten)" is false. -/
theorem nest_keeps_previous_value_counterexample :
    ((nestOp .tInt (.Nbr 0) true true (fun v => some (v, .vi 9)) vmSeeded7).map fun r =>
        ((r.1.exportData.bind fun e => e.lookup pathNbr0), r.2)) =
      some (some (.vi 9), .vi 7) ∧ Value.vi 9 ≠ Value.vi 7 := ⟨rfl, by decide⟩

/-- Claim C3 (amended): `nest(slot, write=true, inc, body)` always records
the body's value at the extended path — overwriting any previous entry — and
returns the previously stored value when one was readable at the operator's
type `A`, else the body's value. -/
theorem nest_overwrites_and_returns_previous
    (τ : Ty) (s : Slot) (i : Bool) (f : EvalFn) (vm : RoundVM)
    (r : RoundVM × Value) (ex1 : Export) (rest1 : List Export) (st' : VMStatus)
    (hf : f { vm with status := (vm.status.push).nest s } = some r)
    (hes : r.1.exportStack = ex1 :: rest1)
    (hpop : r.1.status.pop = some st') :
    ∃ vm2, nestOp τ s true i f vm = some (vm2, (ex1.get τ r.1.status.path).getD r.2) ∧
      (vm2.exportData.bind fun e => e.lookup r.1.status.path) = some r.2 := by
  refine ⟨_, nest_write_spec τ s i f vm r ex1 rest1 st' hf hes hpop, ?_⟩
  simp [RoundVM.exportData, Export.lookup_put_self]

/-- Witness for the amended C3 at a concrete slot, body and VM. -/
theorem nest_overwrites_and_returns_previous_witness :
    ∃ vm2, nestOp .tInt (.Rep 0) true false (fun v => some (v, .vi 4)) vm0 =
        some (vm2, .vi 4) ∧
      (vm2.exportData.bind fun e => e.lookup ⟨[.Rep 0]⟩) = some (Value.vi 4) :=
  nest_overwrites_and_returns_previous .tInt (.Rep 0) false (fun v => some (v, .vi 4))
    vm0 ({ vm0 with status := (vm0.status.push).nest (.Rep 0) }, .vi 4)
    Export.new [] VMStatus.new rfl rfl rfl

/-- Claim C2, counterexample: on a VM whose current export is already
populated at `Nbr(0)` with `99`, `nbr(5)` outside a fold returns `99`, not
the local value `5` (the prior entry is what `nest` returns). -/
theorem nbr_returns_local_counterexample :
    ((eval (.nbr .tInt (.const (.vi 5))) [] vmSeeded99).map fun r => r.2) =
        some (.vi 99) ∧ Value.vi 99 ≠ Value.vi 5 := ⟨rfl, by decide⟩

/-- Claim C2 (amended): with no current folding neighbour (or folding on
self), and provided the current export has no entry readable at the extended
path `path + Nbr(index)` yet, `nbr(expr)` returns `expr`'s local value and
records it at that path in the current export; if an entry is already
present there, that entry is returned instead while `expr`'s value is still
written. -/
theorem nbr_returns_local_and_writes
    (τ : Ty) (e : Expr) (env : List Value) (vm : RoundVM) (ex : Export)
    (rest : List Export) (r : RoundVM × Value)
    (hfold : vm.status.neighbour = none ∨ vm.status.neighbour = some vm.selfId)
    (hstack : vm.exportStack = ex :: rest)
    (hfresh : ex.get τ (vm.status.path.push (.Nbr vm.status.index)) = none)
    (he : eval e env
        { vm with status := (vm.status.push).nest (.Nbr vm.status.index) } = some r) :
    ∃ vm2, eval (.nbr τ e) env vm = some (vm2, r.2) ∧
      (vm2.exportData.bind fun e2 =>
        e2.lookup (vm.status.path.push (.Nbr vm.status.index))) = some r.2 := by
  obtain ⟨hp, hl⟩ := eval_good e env _ r he
  have hppath : r.1.status.path = vm.status.path.push (.Nbr vm.status.index) := by
    simpa [VMStatus.push, VMStatus.nest] using hp.path
  have hpstk : r.1.status.stack =
      (vm.status.path, vm.status.index, vm.status.neighbour) :: vm.status.stack := by
    simpa [VMStatus.push, VMStatus.nest] using hp.stk
  have hpop : r.1.status.pop =
      some ⟨vm.status.path, vm.status.index, vm.status.neighbour, vm.status.stack⟩ := by
    unfold VMStatus.pop
    rw [hpstk]
  rcases hre : r.1.exportStack with _ | ⟨ex1, rest1⟩
  · exfalso
    have := hp.len
    rw [hre, hstack] at this
    simp at this
  · have hlook : ex1.lookup (vm.status.path.push (.Nbr vm.status.index)) =
        ex.lookup (vm.status.path.push (.Nbr vm.status.index)) := by
      have hb := hl (vm.status.path.push (.Nbr vm.status.index))
        (by simp [VMStatus.push, VMStatus.nest])
      unfold headLookup at hb
      rw [hre] at hb
      simpa [hstack] using hb
    have hget : ex1.get τ r.1.status.path = none := by
      rw [hppath]
      exact (Export.get_congr _ _ _ _ hlook).trans hfresh
    have hbody :
        (fun vm1 =>
          match vm1.status.neighbour with
          | some n =>
              if n = vm1.selfId then eval e env vm1
              else
                match vm1.neighborVal τ with
                | some val => some (vm1, val)
                | none => eval e env vm1
          | none => eval e env vm1)
          { vm with status := (vm.status.push).nest (.Nbr vm.status.index) } = some r := by
      have hnb : ((vm.status.push).nest (.Nbr vm.status.index)).neighbour =
          vm.status.neighbour := rfl
      rcases hfold with hc | hc
      · simp only [hnb, hc]
        exact he
      · simp only [hnb, hc]
        rw [if_pos (show vm.selfId = ({ vm with
              status := (vm.status.push).nest (.Nbr vm.status.index) } : RoundVM).selfId
            from rfl)]
        exact he
    have hwrite : vm.unlessFoldingOnOthers = true := by
      rcases hfold with hc | hc <;> simp [RoundVM.unlessFoldingOnOthers, hc]
    have hmain := nest_write_spec τ (.Nbr vm.status.index) true
        (fun vm1 =>
          match vm1.status.neighbour with
          | some n =>
              if n = vm1.selfId then eval e env vm1
              else
                match vm1.neighborVal τ with
                | some val => some (vm1, val)
                | none => eval e env vm1
          | none => eval e env vm1)
        vm r ex1 rest1
        ⟨vm.status.path, vm.status.index, vm.status.neighbour, vm.status.stack⟩
        hbody hre hpop
    rw [hget] at hmain
    refine ⟨{ r.1 with
              exportStack := (ex1.put r.1.status.path r.2 :: rest1),
              status := (⟨vm.status.path, vm.status.index, vm.status.neighbour,
                          vm.status.stack⟩ : VMStatus).incIndex }, ?_, ?_⟩
    · show eval (.nbr τ e) env vm = _
      simp only [eval, nbrImpl]
      rw [hwrite]
      exact hmain
    · rw [← hppath]
      simp [RoundVM.exportData, Export.lookup_put_self]

/-- Witness for the amended C2 at a concrete expression and VM. -/
theorem nbr_returns_local_and_writes_witness :
    ∃ vm2, eval (.nbr .tInt (.const (.vi 5))) [] vm0 = some (vm2, .vi 5) ∧
      (vm2.exportData.bind fun e2 => e2.lookup pathNbr0) = some (Value.vi 5) :=
  nbr_returns_local_and_writes .tInt (.const (.vi 5)) [] vm0 Export.new []
    ({ vm0 with status := (vm0.status.push).nest (.Nbr 0) }, .vi 5)
    (Or.inl rfl) rfl rfl rfl

/-- Claim C6: evaluated while folding on neighbour 1 ≠ self 0 whose last
export has no entry at the branch path, `branch` panics — the code calls
`neighbor_val::<A>().unwrap()` on the miss (modelled `none`) — whereas `nbr`
in the same situation handles the miss as a value-level fallback to local
evaluation. This contradicts the spec's propagation policy. -/
theorem branch_panics_on_neighbour_miss :
    eval (.branch .tInt true (.const (.vi 1)) (.const (.vi 2))) [] vmFoldingOn1 = none ∧
      eval (.nbr .tInt (.const (.vi 1))) [] vmFoldingOn1 ≠ none := ⟨rfl, by decide⟩

/-- Claim C5, counterexample: `foldhood_plus(1, +, 5)` on a field of size 1
returns 2, not the init value 1 — the fold starts from the locally evaluated
seed *and* folds in self's contribution, which `mux` replaced by a second
evaluation of `init`. -/
theorem foldhoodPlus_self_only_counterexample :
    ((eval (.foldhoodPlus .tInt (.const (.vi 1)) addV (.const (.vi 5))) [] vm0).map
        fun r => r.2) = some (.vi 2) ∧ Value.vi 2 ≠ Value.vi 1 := ⟨rfl, by decide⟩

/-- Claim C5 (amended): on a field of size 1 (the context's exports hold no
device other than self — as a `HashMap`, either empty or exactly the self
entry), `foldhood_plus(init, aggr, expr)` returns `aggr(init, init)`: the
fold starts from the local seed and folds in self's single contribution,
which `mux(self == nbr(mid), init, expr)` replaces by `init`. It equals
`init` exactly when `aggr` is idempotent on `init`'s value. -/
theorem foldhoodPlus_self_only
    (τ : Ty) (aggr : Value → Value → Value) (v w : Value) (sid : Int)
    (ls : List (String × Value)) (ns : List (String × List (Int × Value)))
    (exps : List (Int × Export))
    (hexp : exps = [] ∨ ∃ ex, exps = [(sid, ex)]) :
    ((eval (.foldhoodPlus τ (.const v) aggr (.const w)) []
        ⟨⟨sid, ls, ns, exps⟩, VMStatus.new, [Export.new], false⟩).map fun r => r.2) =
      some (aggr v v) := by
  have hdec : ∀ x : Int, (decide (x = x)) = true := fun x => by simp
  rcases hexp with h | ⟨ex, h⟩ <;> subst h <;>
    simp +decide [eval, foldhoodPlusImpl, foldhoodImpl, nbrImpl, muxImpl, midImpl, nestOp,
      locallyOp, foldedEvalOp, isolateOp, foldNbrs, hdec,
      RoundVM.alignedNeighbours, VMStatus.new, VMStatus.push, VMStatus.nest, VMStatus.pop,
      VMStatus.foldInto, VMStatus.foldOut, VMStatus.incIndex, Path.new, Path.push, Path.isRoot,
      RoundVM.unlessFoldingOnOthers, RoundVM.selfId, RoundVM.neighborVal,
      Context.readExportValue, Export.new, Export.get, Export.lookup, Export.put,
      Value.downcast, Value.ty, Value.asBool]

/-- Witness for the amended C5 at a concrete aggregation and values. -/
theorem foldhoodPlus_self_only_witness :
    ((eval (.foldhoodPlus .tInt (.const (.vi 1)) addV (.const (.vi 5))) []
        ⟨⟨0, [], [], []⟩, VMStatus.new, [Export.new], false⟩).map fun r => r.2) =
      some (addV (.vi 1) (.vi 1)) :=
  foldhoodPlus_self_only .tInt addV (.vi 1) (.vi 5) 0 [] [] [] (Or.inl rfl)

/-- Claim C8: for two messages from the same neighbour `n` with timestamps
`t1 < t2`, the memoryless mailbox's read yields the one enqueued last; the
most-recent mailbox's first read yields the `t2` message and its second read
the `t1` message; the least-recent mailbox's first read yields the `t1`
message and its second read the `t2` message. -/
theorem mailbox_policies (n : Int) (e1 e2 : Export) (t1 t2 : Nat) (h : t1 < t2) :
    ((MemoryLessMailbox.empty.enqueue ⟨n, e1, t1⟩).enqueue ⟨n, e2, t2⟩).messagesFn =
        [(n, ⟨n, e2, t2⟩)] ∧
      (((TimeOrderedMailbox.mostRecent.enqueue ⟨n, e1, t1⟩).enqueue
            ⟨n, e2, t2⟩).messagesFn.1 = [(n, ⟨n, e2, t2⟩)] ∧
        ((TimeOrderedMailbox.mostRecent.enqueue ⟨n, e1, t1⟩).enqueue
            ⟨n, e2, t2⟩).messagesFn.2.messagesFn.1 = [(n, ⟨n, e1, t1⟩)]) ∧
      (((TimeOrderedMailbox.leastRecent.enqueue ⟨n, e1, t1⟩).enqueue
            ⟨n, e2, t2⟩).messagesFn.1 = [(n, ⟨n, e1, t1⟩)] ∧
        ((TimeOrderedMailbox.leastRecent.enqueue ⟨n, e1, t1⟩).enqueue
            ⟨n, e2, t2⟩).messagesFn.2.messagesFn.1 = [(n, ⟨n, e2, t2⟩)]) := by
  have hlt : ¬ t2 < t1 := by omega
  have hne : ¬ t2 = t1 := by omega
  refine ⟨?_, ⟨?_, ?_⟩, ⟨?_, ?_⟩⟩ <;>
    simp [MemoryLessMailbox.empty, MemoryLessMailbox.enqueue, MemoryLessMailbox.messagesFn,
      TimeOrderedMailbox.mostRecent, TimeOrderedMailbox.leastRecent,
      TimeOrderedMailbox.enqueue, TimeOrderedMailbox.messagesFn,
      btInsert, popFirstEntry, popLastEntry, hlt, hne, List.find?]

/-- Witness for C8 at concrete neighbour, exports and timestamps. -/
theorem mailbox_policies_witness :
    ((MemoryLessMailbox.empty.enqueue ⟨1, Export.new, 0⟩).enqueue
        ⟨1, Export.new, 1⟩).messagesFn = [(1, ⟨1, Export.new, 1⟩)] :=
  (mailbox_policies 1 Export.new Export.new 0 1 (by omega)).1

end Rufi
